import Mathlib

set_option maxRecDepth 100000

/-!
Verification of the PassMgrPrototype repository.

Shallow embedding of the Rust sources:
  * `src/crypto/src/cipher_chain.rs` — the cascade encryption engine;
  * `src/crypto/src/bip39.rs`       — the mnemonic codec;
  * `src/storage/src/db.rs` and `src/storage/src/user_db.rs` — the user store;
  * `src/passmgr-cli/src/main.rs`   — the client's `ServerSession::sign_request`.

Bytes are modelled as `List Nat` (each element a `u8` value), machine
integers as `Nat` with explicit `% 2 ^ 64` where u64 overflow matters.
External crates (the block/stream cipher implementations, `sha2`,
`bincode` for `Record`, the post-quantum signature) are not code of this
repository; they enter as parameters, constrained only by the properties
the repository's own tests rely on (a block cipher inverts itself and
preserves the block size).  Everything written by this repository itself
is translated directly from the source.
-/

/-! ## Byte and bit helpers -/

/-- Byte-wise XOR of two buffers (`zipWith`, truncating to the shorter). -/
def xorB (a b : List Nat) : List Nat := List.zipWith (fun x y => x ^^^ y) a b

/-- Little-endian 8-byte encoding of a `u64` value (bincode fixint). -/
def u64le (n : Nat) : List Nat := (List.range 8).map (fun i => n / 256 ^ i % 256)

/-- Big-endian 8-byte encoding of a `u64` value (`u64::to_be_bytes`). -/
def u64be (n : Nat) : List Nat := (List.range 8).map (fun i => n / 256 ^ (7 - i) % 256)

/-- Value of a little-endian byte list. -/
def leToNat (l : List Nat) : Nat := l.foldr (fun x acc => x + 256 * acc) 0

/-- Value of a big-endian bit list (the leftmost bit is most significant). -/
def bitsToNat (l : List Bool) : Nat := l.foldl (fun acc b => 2 * acc + (if b then 1 else 0)) 0

/-- The 8 bits of a byte, most significant first (Rust `format!("{byte:08b}")`). -/
def byteToBits (b : Nat) : List Bool := (List.range 8).map (fun i => b.testBit (7 - i))

/-- The 11 bits of a word index, most significant first
(Rust `format!("{idx:011b}")`, exact for indices below 2048). -/
def natToBits11 (n : Nat) : List Bool := (List.range 11).map (fun i => n.testBit (10 - i))

/-- Fuel-driven worker for `chunks`; the fuel is the list length, which
suffices whenever `0 < n`. -/
def chunksGo (n : Nat) : Nat → List α → List (List α)
  | _, [] => []
  | 0, _ :: _ => []
  | fuel + 1, a :: l => ((a :: l).take n) :: chunksGo n fuel ((a :: l).drop n)

/-- Split a list into consecutive chunks of `n` elements (Rust
`chunks`/`chunks_mut`; the final chunk may be shorter). -/
def chunks (n : Nat) (l : List α) : List (List α) := chunksGo n l.length l

/-- XOR a buffer with a keystream, byte position `i` against `ks i`
(model of `apply_keystream` of the `chacha20` crate). -/
def applyKs (ks : Nat → Nat) (l : List Nat) : List Nat :=
  List.zipWith (fun i b => b ^^^ ks i) (List.range l.length) l

/-! ## `src/crypto/src/structures.rs` -/

/-- The cipher enumeration of `src/crypto/src/structures.rs`. -/
inductive CipherOption where
  | AES256
  | ARIA
  | BelT
  | Camellia
  | CAST6
  | Dilithium
  | Kuznyechik
  | Kyber1024
  | NTRUP1277
  | Serpent
  | Spec
  | Twofish
  | XChaCha20
deriving DecidableEq, Repr

/-- Codes from `CipherOption::code` of `src/crypto/src/structures.rs`. -/
def CipherOption.code : CipherOption → Nat
  | .AES256 => 1
  | .ARIA => 2
  | .BelT => 3
  | .Camellia => 4
  | .CAST6 => 5
  | .Dilithium => 6
  | .Kuznyechik => 7
  | .Kyber1024 => 8
  | .NTRUP1277 => 9
  | .Serpent => 10
  | .Spec => 11
  | .Twofish => 12
  | .XChaCha20 => 13

/-- The ciphers `CipherChain::encrypt`/`decrypt` dispatch on (all other
variants hit the `unimplemented!` arm of the `match`). -/
def CipherOption.isSymmetric : CipherOption → Bool
  | .AES256 | .ARIA | .BelT | .Camellia | .CAST6 | .Kuznyechik
  | .Serpent | .Spec | .Twofish | .XChaCha20 => true
  | _ => false

/-- True exactly for the nine 16-byte-block ciphers of the dispatch. -/
def CipherOption.isBlockCipher : CipherOption → Bool
  | .AES256 | .ARIA | .BelT | .Camellia | .CAST6 | .Kuznyechik
  | .Serpent | .Spec | .Twofish => true
  | _ => false

/-- Size of the per-layer IV/nonce `encrypt` draws for a cipher: every
block cipher in the dispatch has a 16-byte block, XChaCha20 uses a
24-byte nonce. -/
def CipherOption.ivSize : CipherOption → Nat
  | .XChaCha20 => 24
  | _ => 16

/-! ## `src/crypto/src/master_keys.rs` (the key container) -/

/-- The `MasterKeys` struct.  The Argon2id derivation lives in the
`argon2` crate; the claims treated here quantify over arbitrary key
material, so the fields are unconstrained byte lists. -/
structure MasterKeys where
  aes256_key : List Nat
  aria_key : List Nat
  belt_key : List Nat
  camellia_key : List Nat
  cast6_key : List Nat
  kuznyechik_key : List Nat
  serpent_key : List Nat
  spec_key : List Nat
  twofish_key : List Nat
  xchacha20_key : List Nat
  ntrup1277_seed : List Nat
  kyber1024_seed : List Nat
deriving DecidableEq, Repr

/-- Accessor `MasterKeys::get_key`.  The source `match` has no `Dilithium` arm at
all; that variant is mapped to the empty slice here to keep the function
total (no claim's domain reaches it). -/
def MasterKeys.get_key (k : MasterKeys) : CipherOption → List Nat
  | .Dilithium => []
  | .AES256 => k.aes256_key
  | .ARIA => k.aria_key
  | .BelT => k.belt_key
  | .Camellia => k.camellia_key
  | .CAST6 => k.cast6_key
  | .Kuznyechik => k.kuznyechik_key
  | .Kyber1024 => k.kyber1024_seed
  | .NTRUP1277 => k.ntrup1277_seed
  | .Serpent => k.serpent_key
  | .Spec => k.spec_key
  | .Twofish => k.twofish_key
  | .XChaCha20 => k.xchacha20_key

/-- All-zero 32-byte key material, used for concrete evaluations. -/
def zeroKeys : MasterKeys :=
  { aes256_key := List.replicate 32 0
    aria_key := List.replicate 32 0
    belt_key := List.replicate 32 0
    camellia_key := List.replicate 32 0
    cast6_key := List.replicate 32 0
    kuznyechik_key := List.replicate 32 0
    serpent_key := List.replicate 32 0
    spec_key := List.replicate 32 0
    twofish_key := List.replicate 32 0
    xchacha20_key := List.replicate 32 0
    ntrup1277_seed := List.replicate 64 0
    kyber1024_seed := List.replicate 84 42 }

/-! ## `src/crypto/src/cipher_chain.rs` -/

/-- The cipher primitives of the external RustCrypto crates
(`aes`, `aria`, …, `chacha20`), keyed per `CipherOption`:
`encB c key block`, `decB c key block` are one block-cipher call, and
`ksByte c key nonce i` is byte `i` of the XChaCha20 keystream. -/
structure CipherPrims where
  encB : CipherOption → List Nat → List Nat → List Nat
  decB : CipherOption → List Nat → List Nat → List Nat
  ksByte : CipherOption → List Nat → List Nat → Nat → Nat

/-- Trivial instantiation of the external primitives (identity block
cipher, all-zero keystream); it satisfies the inversion and
length-preservation laws and is used for concrete evaluations. -/
def idPrims : CipherPrims :=
  { encB := fun _ _ b => b
    decB := fun _ _ b => b
    ksByte := fun _ _ _ _ => 0 }

/-- Failure modes of the chain code.  The Rust functions return plain
buffers and abort by `panic!`/`unimplemented!`; those aborts are modelled
as error values so the embedding is total. -/
inductive ChainError where
  /-- `panic!("Invalid data length")` in `decrypt`/`reverse_process`. -/
  | panicInvalidDataLength
  /-- out-of-range `drain` after the padding byte exceeded the buffer. -/
  | panicDrain
  /-- the `unimplemented!` arm for non-symmetric cipher codes. -/
  | unimplementedCipher
deriving DecidableEq, Repr

/-- PCBC encryption of a block sequence (the `pcbc` crate's `Encryptor`):
block `p` becomes `E (p ⊕ z)` where `z` starts as the IV and continues as
previous-plaintext ⊕ previous-ciphertext. -/
def pcbcEnc (E : List Nat → List Nat) (z : List Nat) : List (List Nat) → List (List Nat)
  | [] => []
  | p :: ps => let c := E (xorB p z); c :: pcbcEnc E (xorB p c) ps

/-- PCBC decryption (the `pcbc` crate's `Decryptor`): block `c` becomes
`D c ⊕ z`, with the same chaining value. -/
def pcbcDec (D : List Nat → List Nat) (z : List Nat) : List (List Nat) → List (List Nat)
  | [] => []
  | c :: cs => let p := xorB (D c) z; p :: pcbcDec D (xorB p c) cs

/-- Model of `CipherChain::process::<C>` for a block cipher with the given
one-block encryption function: prepend the supplied IV, apply PKCS#7
padding at the IV's size, PCBC-encrypt everything after the IV. -/
def process (E : List Nat → List Nat) (iv data : List Nat) : List Nat :=
  let d1 := iv ++ data
  let block_size := iv.length
  let len_after_iv := d1.length - block_size
  let padding := block_size - len_after_iv % block_size
  let d2 := d1 ++ List.replicate padding padding
  iv ++ (pcbcEnc E iv (chunks block_size (d2.drop block_size))).flatten

/-- Model of `CipherChain::reverse_process::<C>`: length guard (a `panic!` on
violation), PCBC decryption of the blocks after the IV, PKCS#7 strip
(skipped when the padding byte exceeds the block size), IV removal. -/
def reverse_process (D : List Nat → List Nat) (block_size : Nat) (data : List Nat) :
    Except ChainError (List Nat) :=
  if data.length < block_size ∨ (data.length - block_size) % block_size ≠ 0 then
    .error .panicInvalidDataLength
  else
    let iv := data.take block_size
    let dec := iv ++ (pcbcDec D iv (chunks block_size (data.drop block_size))).flatten
    let padding := dec.getLastD 0
    let dec2 := if padding ≤ block_size then dec.take (dec.length - padding) else dec
    if dec2.length < block_size then .error .panicDrain
    else .ok (dec2.drop block_size)

/-- One layer of `CipherChain::encrypt` with its drawn IV/nonce: the
dispatch arm for the cipher.  For XChaCha20 the source splices the
24-byte nonce in front and applies the keystream to `data[24..]`. -/
def encLayer (P : CipherPrims) (keys : MasterKeys) (c : CipherOption) (iv data : List Nat) :
    Except ChainError (List Nat) :=
  let key := keys.get_key c
  if c = .XChaCha20 then
    let d := iv ++ data
    .ok (d.take 24 ++ applyKs (P.ksByte c key iv) (d.drop 24))
  else if c.isBlockCipher then
    .ok (process (P.encB c key) iv data)
  else
    .error .unimplementedCipher

/-- One layer of `CipherChain::decrypt`: the dispatch arm for the cipher.
For XChaCha20: panic on fewer than 24 bytes, read the nonce, undo the
keystream on the tail, drop the nonce. -/
def decLayer (P : CipherPrims) (keys : MasterKeys) (c : CipherOption) (data : List Nat) :
    Except ChainError (List Nat) :=
  let key := keys.get_key c
  if c = .XChaCha20 then
    if data.length < 24 then .error .panicInvalidDataLength
    else
      let iv := data.take 24
      .ok (applyKs (P.ksByte c key iv) (data.drop 24))
  else if c.isBlockCipher then
    reverse_process (P.decB c key) 16 data
  else
    .error .unimplementedCipher

/-- The layer loop of `CipherChain::encrypt`, consuming one drawn
IV/nonce per declared cipher, in declaration order. -/
def encryptLayers (P : CipherPrims) (keys : MasterKeys) :
    List (CipherOption × List Nat) → List Nat → Except ChainError (List Nat)
  | [], data => .ok data
  | (c, iv) :: rest, data =>
    match encLayer P keys c iv data with
    | .error e => .error e
    | .ok d => encryptLayers P keys rest d

/-- The layer loop of `CipherChain::decrypt` (already-reversed order). -/
def decryptLayers (P : CipherPrims) (keys : MasterKeys) :
    List CipherOption → List Nat → Except ChainError (List Nat)
  | [], data => .ok data
  | c :: rest, data =>
    match decLayer P keys c data with
    | .error e => .error e
    | .ok d => decryptLayers P keys rest d

/-- The `CipherChain` struct: the declared cipher list and key material. -/
structure CipherChain where
  cipher_chain : List CipherOption
  keys : MasterKeys

/-- Model of `CipherChain::encrypt`.  The per-layer random IVs/nonces drawn by
`rand::thread_rng` are passed explicitly, one per layer. -/
def CipherChain.encrypt (P : CipherPrims) (cc : CipherChain) (ivs : List (List Nat))
    (data : List Nat) : Except ChainError (List Nat) :=
  encryptLayers P cc.keys (cc.cipher_chain.zip ivs) data

/-- Model of `CipherChain::decrypt`: the inverse layers in reverse declaration
order (`self.cipher_chain.iter().rev()`). -/
def CipherChain.decrypt (P : CipherPrims) (cc : CipherChain) (data : List Nat) :
    Except ChainError (List Nat) :=
  decryptLayers P cc.keys cc.cipher_chain.reverse data

/-- The cipher list the CLI configures everywhere
(`src/passmgr-cli/src/main.rs` and the chain's own tests). -/
def demoChain : List CipherOption := [.AES256, .XChaCha20, .Kuznyechik]

/-- The 23 ASCII bytes of `"Multi-cipher chain test"`. -/
def s3Plain : List Nat :=
  [77, 117, 108, 116, 105, 45, 99, 105, 112, 104, 101, 114, 32,
   99, 104, 97, 105, 110, 32, 116, 101, 115, 116]

/-- All-zero IV draws of the right sizes for `demoChain`. -/
def s3Ivs : List (List Nat) :=
  [List.replicate 16 0, List.replicate 24 0, List.replicate 16 0]

/-! ## `src/crypto/src/bip39.rs`

The SHA-256 implementation lives in the external `sha2` crate and enters
as a parameter `sha`; the 2048-word English list is the data file
`wordlist/english.txt` (not a source file) and enters as a parameter
`wordlist`.  A mnemonic string is represented by its
`split_whitespace()` result, a list of words. -/

/-- Error type `Bip39Error` of `src/crypto/src/bip39.rs` (payload strings dropped). -/
inductive Bip39Error where
  | invalidEntropyLength
  | invalidMnemonic
  | invalidStrHex
  | passmgrCliError
  | invalidChecksum
  | rngError
deriving DecidableEq, Repr

/-- Model of `Bip39::generate_checksum`: first byte of SHA-256 of the entropy. -/
def generate_checksum (sha : List Nat → List Nat) (entropy : List Nat) : Nat :=
  (sha entropy).headD 0

/-- Model of `Bip39::verify_checksum` as written in the source: the checksum and
the expected bit count are computed and then discarded, and the function
returns `true` unconditionally (the real comparison is commented out
behind a `TODO Implement it!!!`). -/
def verify_checksum (sha : List Nat → List Nat) (entropy : List Nat) : Bool :=
  let _ := generate_checksum sha entropy
  let _ := entropy.length * 8 / 32
  true

/-- Model of `Bip39::verify_mnemonic`: word count in {12, 15, 18, 21, 24}. -/
def verify_mnemonic (words : List String) : Bool :=
  words.length == 12 || words.length == 15 || words.length == 18 ||
  words.length == 21 || words.length == 24

/-- Model of `Bip39::entropy_to_mnemonic`: entropy bits followed by the first
`len/4` checksum bits, cut into 11-bit indices into the word list.  (The
source returns `Result`, but its only error arm — a failed parse of a
binary digit string the function itself just built — is unreachable, so
the embedding is total; out-of-range indexing into a short word list,
a panic in Rust, is modelled by `getD` with a default.) -/
def entropy_to_mnemonic (sha : List Nat → List Nat) (wordlist : List String)
    (entropy : List Nat) : List String :=
  let checksum := generate_checksum sha entropy
  let checksum_bits := entropy.length / 4
  let bits := (entropy.map byteToBits).flatten ++ (byteToBits checksum).take checksum_bits
  (chunks 11 bits).map (fun chunk => wordlist.getD (bitsToNat chunk) "")

/-- The word-lookup loop of `Bip39::mnemonic_to_entropy`:
`wordlist.iter().position(...)` for each word, `InvalidMnemonic` when a
word is absent. -/
def wordIndices (wordlist : List String) : List String → Except Bip39Error (List Nat)
  | [] => .ok []
  | w :: ws =>
    match wordlist.findIdx? (fun x => x == w) with
    | none => .error .invalidMnemonic
    | some idx =>
      match wordIndices wordlist ws with
      | .error e => .error e
      | .ok rest => .ok (idx :: rest)

/-- Model of `Bip39::mnemonic_to_entropy`: look every word up, concatenate the
11-bit indices, drop the trailing `len/33` checksum bits, regroup the
leading bits into bytes, and run `verify_checksum`. -/
def mnemonic_to_entropy (sha : List Nat → List Nat) (wordlist : List String)
    (words : List String) : Except Bip39Error (List Nat) :=
  match wordIndices wordlist words with
  | .error e => .error e
  | .ok idxs =>
    let bits := (idxs.map natToBits11).flatten
    let checksum_bits := bits.length / 33
    let entropy_bits := bits.length - checksum_bits
    let entropy :=
      (List.range ((entropy_bits + 7) / 8)).map (fun k => bitsToNat ((bits.drop (8 * k)).take 8))
    if verify_checksum sha entropy then .ok entropy else .error .invalidChecksum

/-- Model of `Bip39::from_mnemonic` (on the already-split word list): the word
count check, then `mnemonic_to_entropy`; returns the decoded entropy. -/
def from_mnemonic (sha : List Nat → List Nat) (wordlist : List String)
    (words : List String) : Except Bip39Error (List Nat) :=
  if !verify_mnemonic words then .error .invalidMnemonic
  else mnemonic_to_entropy sha wordlist words

/-! ## `src/storage/src/structures.rs` (as used by `user_db.rs`) -/

/-- Field attributes of an `Item`. -/
inductive Atributes where
  | Hide
  | Copy
  | Reload
deriving DecidableEq, Repr

/-- A single field of a plaintext record. -/
structure Item where
  title : String
  value : String
  types : List Atributes
deriving DecidableEq, Repr

/-- A plaintext user record. -/
structure Record where
  icon : String
  created : Nat
  updated : Nat
  fields : List Item
deriving DecidableEq, Repr

/-- The persistence unit.  `user_id` is the 32-byte `UserId` (as the
`user_db.rs` code uses it), `ver` a `u64`. -/
structure CipherRecord where
  user_id : List Nat
  cipher_record_id : Nat
  ver : Nat
  cipher_options : List Nat
  data : List Nat
deriving DecidableEq, Repr

/-! ## bincode encoding of `CipherRecord`

`bincode::serialize`/`deserialize` (v1 default options: fixed-width
little-endian integers, `u64` lengths for `Vec`, raw bytes for the
`[u8; 32]` array, trailing bytes allowed on deserialize), written out
concretely for `CipherRecord` so that corrupt stored values exist in the
model. -/

/-- bincode serialization of a `CipherRecord`. -/
def serCipherRecord (r : CipherRecord) : List Nat :=
  r.user_id ++ (u64le r.cipher_record_id ++ (u64le r.ver ++
    (u64le r.cipher_options.length ++ (r.cipher_options ++
      (u64le r.data.length ++ r.data)))))

/-- Read `n` bytes from the front of a buffer, failing when short. -/
def readBytes (n : Nat) (l : List Nat) : Option (List Nat × List Nat) :=
  if n ≤ l.length then some (l.take n, l.drop n) else none

/-- Read a little-endian `u64` from the front of a buffer. -/
def readU64 (l : List Nat) : Option (Nat × List Nat) :=
  match readBytes 8 l with
  | none => none
  | some (b, rest) => some (leToNat b, rest)

/-- bincode deserialization of a `CipherRecord`. -/
def deserCipherRecord (bytes : List Nat) : Option CipherRecord :=
  match readBytes 32 bytes with
  | none => none
  | some (uid, r1) =>
    match readU64 r1 with
    | none => none
    | some (crid, r2) =>
      match readU64 r2 with
      | none => none
      | some (ver, r3) =>
        match readU64 r3 with
        | none => none
        | some (n1, r4) =>
          match readBytes n1 r4 with
          | none => none
          | some (opts, r5) =>
            match readU64 r5 with
            | none => none
            | some (n2, r6) =>
              match readBytes n2 r6 with
              | none => none
              | some (dat, _) =>
                some { user_id := uid, cipher_record_id := crid, ver := ver,
                       cipher_options := opts, data := dat }

/-! ## `src/storage/src/db.rs`

The sled tree holding one user's records is modelled as an association
list from `u64` keys to stored byte strings.  Keys are written through
`u64::to_be_bytes` and decoded back in `list_ids`; since that encoding
round-trips exactly, keys are kept as `Nat` directly.  sled itself is
assumed not to fail at the media level; the failure modes the claims are
about (missing key, undeserializable value) are represented. -/

/-- Error type `StorageError` of `src/storage/src/error.rs` (payloads dropped). -/
inductive StorageError where
  | storageOpenError
  | storageExistError
  | storageWriteError
  | storageReadError
  | storageDataNotFound
  | storageKeyError
deriving DecidableEq, Repr

/-- A user's sled tree: key/value pairs with unique keys. -/
def Store := List (Nat × List Nat)

/-- Insert-or-replace in the association list (sled `insert`). -/
def assocSet (st : Store) (k : Nat) (v : List Nat) : Store :=
  match st with
  | [] => [(k, v)]
  | (k', v') :: rest => if k' = k then (k, v) :: rest else (k', v') :: assocSet rest k v

/-- Remove a key from the association list (sled `remove`). -/
def assocRemove (st : Store) (k : Nat) : Store :=
  match st with
  | [] => []
  | (k', v') :: rest => if k' = k then rest else (k', v') :: assocRemove rest k

/-- Look a key up in the association list (sled `get`). -/
def assocGet (st : Store) (k : Nat) : Option (List Nat) :=
  match st with
  | [] => none
  | (k', v') :: rest => if k' = k then some v' else assocGet rest k

/-- Outcome of `Storage::get`: the source unwraps the bincode result, so
an undeserializable stored value is a panic, not an `Err`. -/
inductive GetResult where
  | ok (r : CipherRecord)
  | err (e : StorageError)
  | panic
deriving DecidableEq, Repr

/-- Model of `Storage::set`: serialize and insert. -/
def Storage.set (st : Store) (key : Nat) (payload : CipherRecord) : Store :=
  assocSet st key (serCipherRecord payload)

/-- Model of `Storage::get`: absent key is `StorageDataNotFound`; a present value
is `deserialize(..).unwrap()`ed — failure there is a panic. -/
def Storage.get (st : Store) (key : Nat) : GetResult :=
  match assocGet st key with
  | none => .err .storageDataNotFound
  | some bytes =>
    match deserCipherRecord bytes with
    | none => .panic
    | some r => .ok r

/-- Model of `Storage::up`: remove, then insert the new serialized payload. -/
def Storage.up (st : Store) (key : Nat) (payload : CipherRecord) : Store :=
  assocSet (assocRemove st key) key (serCipherRecord payload)

/-- Model of `Storage::remove`. -/
def Storage.remove (st : Store) (key : Nat) : Store :=
  assocRemove st key

/-- Model of `Storage::list_ids`: every key of the tree, in iteration order. -/
def Storage.list_ids (st : Store) : List Nat :=
  st.map (fun p => p.1)

/-! ## `src/storage/src/user_db.rs`

`bincode` for the plaintext `Record` is abstracted as a serialization
parameter `serRec`/`deserRec`; the external cipher crates as `P`.  The
record id generator reads the wall clock (`SystemTime::now` seconds) —
the observed clock value is the explicit parameter `now` — and `encrypt`
draws random IVs, passed as `ivs`.  Each mutating operation returns the
updated store. -/

/-- Error type `UserDbError` of `user_db.rs`, plus `panic` for the modelled aborts
(cipher-chain panics and the `deserialize(..).unwrap()` in `Storage::get`). -/
inductive UserDbError where
  | storageError (e : StorageError)
  | serializationError
  | encryptionError
  | decryptionError
  | panic
deriving DecidableEq, Repr

/-- The `UserDb` session object (its `storage` field, the mutable sled
tree, is the explicit `Store` argument of each operation). -/
structure UserDb where
  user_id : List Nat
  ciphers : CipherChain

/-- Model of `UserDb::get_cipher_options`: a hardcoded list — the codes of AES-256
and XChaCha20 only, regardless of the configured chain (the source comment
reads "Add other ciphers as needed"). -/
def UserDb.get_cipher_options (_u : UserDb) : List Nat :=
  [CipherOption.AES256.code, CipherOption.XChaCha20.code]

/-- Model of `UserDb::generate_record_id`: Unix seconds of the wall clock. -/
def UserDb.generate_record_id (_u : UserDb) (now : Nat) : Nat := now

/-- Model of `UserDb::create`: generate an id, serialize, encrypt, wrap with
`ver = 1` and the (hardcoded) cipher options, insert; returns the id. -/
def UserDb.create (P : CipherPrims) (serRec : Record → List Nat) (u : UserDb)
    (st : Store) (now : Nat) (ivs : List (List Nat)) (record : Record) :
    Except UserDbError (Nat × Store) :=
  let record_id := u.generate_record_id now
  let data := serRec record
  match CipherChain.encrypt P u.ciphers ivs data with
  | .error _ => .error .panic
  | .ok encrypted_data =>
    let cipher_record : CipherRecord :=
      { user_id := u.user_id, cipher_record_id := record_id, ver := 1,
        cipher_options := u.get_cipher_options, data := encrypted_data }
    .ok (record_id, Storage.set st record_id cipher_record)

/-- Model of `UserDb::read`: load, refuse foreign `user_id` with
`DecryptionError`, decrypt with the session's chain, deserialize. -/
def UserDb.read (P : CipherPrims) (deserRec : List Nat → Option Record) (u : UserDb)
    (st : Store) (record_id : Nat) : Except UserDbError Record :=
  match Storage.get st record_id with
  | .panic => .error .panic
  | .err e => .error (.storageError e)
  | .ok cipher_record =>
    if cipher_record.user_id ≠ u.user_id then .error .decryptionError
    else
      match CipherChain.decrypt P u.ciphers cipher_record.data with
      | .error _ => .error .panic
      | .ok decrypted_data =>
        match deserRec decrypted_data with
        | none => .error .serializationError
        | some record => .ok record

/-- Model of `UserDb::update`: read the current record (no ownership check),
re-encrypt the new one, persist with `ver = current.ver + 1` (u64
wrapping) and the session's `user_id` and cipher options. -/
def UserDb.update (P : CipherPrims) (serRec : Record → List Nat) (u : UserDb)
    (st : Store) (ivs : List (List Nat)) (record_id : Nat) (record : Record) :
    Except UserDbError Store :=
  match Storage.get st record_id with
  | .panic => .error .panic
  | .err e => .error (.storageError e)
  | .ok current =>
    let data := serRec record
    match CipherChain.encrypt P u.ciphers ivs data with
    | .error _ => .error .panic
    | .ok encrypted_data =>
      let cipher_record : CipherRecord :=
        { user_id := u.user_id, cipher_record_id := record_id,
          ver := (current.ver + 1) % 2 ^ 64,
          cipher_options := u.get_cipher_options, data := encrypted_data }
      .ok (Storage.up st record_id cipher_record)

/-- Model of `UserDb::delete`. -/
def UserDb.delete (_u : UserDb) (st : Store) (record_id : Nat) : Store :=
  Storage.remove st record_id

/-- The per-id loop of `UserDb::list_records`: `if let Ok(record) =
storage.get(id)` skips `Err` results, a panic inside `get` aborts the
whole call, and matching records contribute their embedded
`cipher_record_id`. -/
def listRecordsGo (st : Store) (uid : List Nat) : List Nat → Except UserDbError (List Nat)
  | [] => .ok []
  | id :: rest =>
    match Storage.get st id with
    | .panic => .error .panic
    | .err _ => listRecordsGo st uid rest
    | .ok record =>
      match listRecordsGo st uid rest with
      | .error e => .error e
      | .ok tl => .ok (if record.user_id = uid then record.cipher_record_id :: tl else tl)

/-- Model of `UserDb::list_records`. -/
def UserDb.list_records (u : UserDb) (st : Store) : Except UserDbError (List Nat) :=
  listRecordsGo st u.user_id (Storage.list_ids st)

/-- The per-id loop of `UserDb::list_records_with_metadata`. -/
def listMetaGo (st : Store) (uid : List Nat) :
    List Nat → Except UserDbError (List (Nat × Nat × List Nat))
  | [] => .ok []
  | id :: rest =>
    match Storage.get st id with
    | .panic => .error .panic
    | .err _ => listMetaGo st uid rest
    | .ok record =>
      match listMetaGo st uid rest with
      | .error e => .error e
      | .ok tl =>
        .ok (if record.user_id = uid then
               (record.cipher_record_id, record.ver, record.user_id) :: tl
             else tl)

/-- Model of `UserDb::list_records_with_metadata`. -/
def UserDb.list_records_with_metadata (u : UserDb) (st : Store) :
    Except UserDbError (List (Nat × Nat × List Nat)) :=
  listMetaGo st u.user_id (Storage.list_ids st)

/-! ## `src/passmgr-cli/src/main.rs` — `ServerSession::sign_request` -/

/-- Message type `AuthSignature` of the RPC protocol. -/
structure AuthSignature where
  user_id : List Nat
  nonce : Nat
  signature : List Nat
deriving DecidableEq, Repr

/-- The client's `ServerSession` (the gRPC channel is irrelevant here;
`key_pairs` is the optional signing keypair, abstracted to its bytes). -/
structure ServerSession where
  user_id : List Nat
  key_pairs : Option (List Nat)
  nonce : Nat
deriving DecidableEq, Repr

/-- Error type `PassmgrError` of the CLI, reduced to the arm `sign_request` uses. -/
inductive PassmgrError where
  | server
deriving DecidableEq, Repr

/-- Model of `ServerSession::sign_request`.  The method takes `&self`; the
already-prost-encoded request bytes are the parameter, `sign` is the
external Dilithium-2 signing function.  The source computes
`self.nonce.wrapping_add(1)` and discards it (`let _ = ...`), so the
session comes back unchanged alongside the produced `AuthSignature`. -/
def sign_request (sign : List Nat → List Nat → List Nat) (s : ServerSession)
    (request_bytes : List Nat) : Except PassmgrError (AuthSignature × ServerSession) :=
  match s.key_pairs with
  | none => .error .server
  | some keypair =>
    let sign_data := u64be s.nonce ++ request_bytes
    let signature := sign keypair sign_data
    let auth_data : AuthSignature :=
      { user_id := s.user_id, nonce := s.nonce, signature := signature }
    let _ := (s.nonce + 1) % 2 ^ 64
    .ok (auth_data, s)


/-! ## Concrete instances used by witnesses and counterexamples -/

def shortForLayer (c : CipherOption) (len : Nat) : Bool :=
  if c = .XChaCha20 then decide (len < 24)
  else if c.isBlockCipher then decide (len < 16 ∨ (len - 16) % 16 ≠ 0)
  else false

def storedOf (r : CipherRecord) : CipherRecord :=
  { user_id := r.user_id, cipher_record_id := r.cipher_record_id % 2 ^ 64,
    ver := r.ver % 2 ^ 64, cipher_options := r.cipher_options,
    data := r.data.take (r.data.length % 2 ^ 64) }

def uid0 : List Nat := List.replicate 32 0

def uid1 : List Nat := List.replicate 32 1

def demoUser : UserDb := { user_id := uid0, ciphers := ⟨demoChain, zeroKeys⟩ }

def emptyChainUser : UserDb := { user_id := uid0, ciphers := ⟨[], zeroKeys⟩ }

def demoRecord : Record := { icon := "", created := 0, updated := 0, fields := [] }

def c6Store : Store := Storage.set [] 1 ⟨uid0, 1, 5, [], []⟩

def c6CurStored : CipherRecord := ⟨uid0, 1, 5, [], []⟩

def c6After : Store := Storage.up c6Store 1 ⟨uid0, 1, 6, [1, 13], []⟩

def c6Created : Store := Storage.set c6Store 7 ⟨uid0, 7, 1, [1, 13], []⟩

def c6WrapStore : Store := Storage.set [] 1 ⟨uid0, 1, 2 ^ 64 - 1, [], []⟩

def c9Store : Store := Storage.set [] 3 ⟨uid1, 3, 5, [], []⟩

def c9Foreign : CipherRecord := ⟨uid1, 3, 5, [], []⟩

def c9WrapStore : Store := Storage.set [] 3 ⟨uid1, 3, 2 ^ 64 - 1, [], []⟩

def c10Store : Store := Storage.set (Storage.set [] 3 ⟨uid1, 3, 5, [], []⟩) 4 ⟨uid0, 4, 1, [], []⟩

def witnessWordlist : List String :=
  (List.range 2048).map (fun n => String.mk (List.replicate n 'a'))

/-! ## Theorems -/

theorem xorB_length (a b : List Nat) : (xorB a b).length = min a.length b.length := by
  simp [xorB]

theorem xorB_xorB_right : ∀ (a b : List Nat), a.length = b.length → xorB (xorB a b) b = a
  | [], [], _ => rfl
  | x :: a, y :: b, h => by
    simp only [xorB, List.zipWith]
    have hx : (x ^^^ y) ^^^ y = x := by rw [Nat.xor_assoc, Nat.xor_self, Nat.xor_zero]
    have ih := xorB_xorB_right a b (by simpa using h)
    simp only [xorB] at ih
    rw [hx, ih]

theorem chunksGo_flatten {α : Type} (n : Nat) (hn : 0 < n) :
    ∀ (fuel : Nat) (l : List α), l.length ≤ fuel → (chunksGo n fuel l).flatten = l := by
  intro fuel
  induction fuel with
  | zero =>
    intro l hl
    have : l = [] := List.eq_nil_of_length_eq_zero (Nat.le_zero.mp hl)
    subst this; rfl
  | succ fuel ih =>
    intro l hl
    cases l with
    | nil => rfl
    | cons a t =>
      simp only [chunksGo, List.flatten_cons]
      have hd : ((a :: t).drop n).length ≤ fuel := by
        simp only [List.length_drop]
        have : (a :: t).length ≤ fuel + 1 := hl
        omega
      rw [ih ((a :: t).drop n) hd]
      exact List.take_append_drop n (a :: t)

theorem mem_chunksGo {α : Type} (n : Nat) (hn : 0 < n) :
    ∀ (fuel : Nat) (l : List α) (b : List α), n ∣ l.length → b ∈ chunksGo n fuel l →
      b.length = n := by
  intro fuel
  induction fuel with
  | zero =>
    intro l b _ hb
    cases l <;> simp [chunksGo] at hb
  | succ fuel ih =>
    intro l b hdvd hb
    cases l with
    | nil => simp [chunksGo] at hb
    | cons a t =>
      simp only [chunksGo, List.mem_cons] at hb
      have hlen : n ≤ (a :: t).length := Nat.le_of_dvd (by simp) hdvd
      rcases hb with hb | hb
      · rw [hb, List.length_take]; omega
      · refine ih _ b ?_ hb
        simp only [List.length_drop]
        exact Nat.dvd_sub' hdvd dvd_rfl

theorem chunksGo_eq_of_blocks {α : Type} (n : Nat) (hn : 0 < n) :
    ∀ (bs : List (List α)) (fuel : Nat), (∀ b ∈ bs, b.length = n) →
      bs.flatten.length ≤ fuel → chunksGo n fuel bs.flatten = bs := by
  intro bs
  induction bs with
  | nil => intro fuel _ _; cases fuel <;> rfl
  | cons b bs ih =>
    intro fuel hb hfuel
    have hbn : b.length = n := hb b (by simp)
    have hb0 : b ≠ [] := by
      intro hc; rw [hc] at hbn; simp at hbn; omega
    obtain ⟨x, xs, hbc⟩ := List.exists_cons_of_ne_nil hb0
    have hflat : (b :: bs).flatten = b ++ bs.flatten := by simp
    have hcons : b ++ bs.flatten = x :: (xs ++ bs.flatten) := by rw [hbc]; rfl
    have hlenflat : (b ++ bs.flatten).length = n + bs.flatten.length := by
      simp [hbn]
    cases fuel with
    | zero =>
      exfalso
      rw [hflat, hlenflat] at hfuel
      omega
    | succ fuel =>
      rw [hflat, hcons]
      show ((x :: (xs ++ bs.flatten)).take n :: chunksGo n fuel ((x :: (xs ++ bs.flatten)).drop n))
          = b :: bs
      rw [← hcons, List.take_left' hbn, List.drop_left' hbn]
      have hrest : bs.flatten.length ≤ fuel := by
        rw [hflat, hlenflat] at hfuel
        omega
      rw [ih fuel (fun c hc => hb c (by simp [hc])) hrest]

theorem flatten_length_const {α : Type} (n : Nat) :
    ∀ (bs : List (List α)), (∀ b ∈ bs, b.length = n) → bs.flatten.length = n * bs.length := by
  intro bs
  induction bs with
  | nil => simp
  | cons b bs ih =>
    intro hb
    simp only [List.flatten_cons, List.length_append, List.length_cons]
    rw [hb b (by simp), ih (fun c hc => hb c (by simp [hc]))]
    ring

theorem chunksGo_count {α : Type} (n : Nat) (hn : 0 < n) :
    ∀ (fuel : Nat) (l : List α), n ∣ l.length → l.length ≤ fuel →
      (chunksGo n fuel l).length = l.length / n := by
  intro fuel
  induction fuel with
  | zero =>
    intro l _ hl
    have : l = [] := List.eq_nil_of_length_eq_zero (Nat.le_zero.mp hl)
    subst this; simp [chunksGo]
  | succ fuel ih =>
    intro l hdvd hl
    cases l with
    | nil => simp [chunksGo]
    | cons a t =>
      have hlen : n ≤ (a :: t).length := Nat.le_of_dvd (by simp) hdvd
      have hdrop : ((a :: t).drop n).length = (a :: t).length - n := by
        simp only [List.length_drop]
      have hdvd' : n ∣ ((a :: t).drop n).length := by
        rw [hdrop]; exact Nat.dvd_sub' hdvd dvd_rfl
      have hfuel' : ((a :: t).drop n).length ≤ fuel := by
        rw [hdrop]
        have : (a :: t).length ≤ fuel + 1 := hl
        omega
      show ((a :: t).take n :: chunksGo n fuel ((a :: t).drop n)).length = (a :: t).length / n
      rw [List.length_cons, ih _ hdvd' hfuel', hdrop]
      have hstep := Nat.add_div_right ((a :: t).length - n) hn
      have h2 : (a :: t).length - n + n = (a :: t).length := by omega
      rw [h2] at hstep
      exact hstep.symm

theorem pcbcEnc_blocks_length (E : List Nat → List Nat)
    (hE : ∀ b : List Nat, b.length = 16 → (E b).length = 16) :
    ∀ (bs : List (List Nat)) (z : List Nat), z.length = 16 → (∀ b ∈ bs, b.length = 16) →
      ∀ c ∈ pcbcEnc E z bs, c.length = 16 := by
  intro bs
  induction bs with
  | nil => intro z _ _ c hc; simp [pcbcEnc] at hc
  | cons p ps ih =>
    intro z hz hb c hc
    have hp : p.length = 16 := hb p (by simp)
    have hxz : (xorB p z).length = 16 := by rw [xorB_length, hp, hz]; simp
    have hcl : (E (xorB p z)).length = 16 := hE _ hxz
    simp only [pcbcEnc, List.mem_cons] at hc
    rcases hc with hc | hc
    · rw [hc]; exact hcl
    · refine ih (xorB p (E (xorB p z))) ?_ (fun b hbm => hb b (by simp [hbm])) c hc
      rw [xorB_length, hp, hcl]; simp

theorem pcbcDec_pcbcEnc (E D : List Nat → List Nat)
    (hE : ∀ b : List Nat, b.length = 16 → (E b).length = 16)
    (hD : ∀ b : List Nat, b.length = 16 → D (E b) = b) :
    ∀ (bs : List (List Nat)) (z : List Nat), z.length = 16 → (∀ b ∈ bs, b.length = 16) →
      pcbcDec D z (pcbcEnc E z bs) = bs := by
  intro bs
  induction bs with
  | nil => intro z _ _; rfl
  | cons p ps ih =>
    intro z hz hb
    have hp : p.length = 16 := hb p (by simp)
    have hxz : (xorB p z).length = 16 := by rw [xorB_length, hp, hz]; simp
    simp only [pcbcEnc, pcbcDec]
    rw [hD _ hxz, xorB_xorB_right p z (by rw [hp, hz])]
    rw [ih (xorB p (E (xorB p z))) (by rw [xorB_length, hp, hE _ hxz]; simp)
         (fun b hbm => hb b (by simp [hbm]))]

theorem applyKs_length (ks : Nat → Nat) (l : List Nat) : (applyKs ks l).length = l.length := by
  simp [applyKs]

theorem applyKs_cons (ks : Nat → Nat) (a : Nat) (l : List Nat) :
    applyKs ks (a :: l) = (a ^^^ ks 0) :: applyKs (fun i => ks (i + 1)) l := by
  simp only [applyKs, List.length_cons, List.range_succ_eq_map, List.zipWith_cons_cons,
    Nat.zero_xor]
  rw [List.zipWith_map_left]

theorem applyKs_applyKs : ∀ (l : List Nat) (ks : Nat → Nat), applyKs ks (applyKs ks l) = l := by
  intro l
  induction l with
  | nil => intro ks; rfl
  | cons a l ih =>
    intro ks
    rw [applyKs_cons, applyKs_cons]
    rw [Nat.xor_assoc, Nat.xor_self, Nat.xor_zero, ih]

theorem padded_facts (L : Nat) :
    1 ≤ 16 - L % 16 ∧ 16 - L % 16 ≤ 16 ∧ 16 ∣ (L + (16 - L % 16)) := by
  have h := Nat.mod_lt L (show 0 < 16 by decide)
  refine ⟨by omega, by omega, ?_⟩
  have hdm := Nat.div_add_mod L 16
  exact ⟨L / 16 + 1, by omega⟩

theorem process_eq (E : List Nat → List Nat) (iv data : List Nat) (hiv : iv.length = 16) :
    process E iv data =
      iv ++ (pcbcEnc E iv (chunks 16 (data ++
        List.replicate (16 - data.length % 16) (16 - data.length % 16)))).flatten := by
  simp only [process, hiv, List.length_append, List.append_assoc]
  rw [Nat.add_sub_cancel_left, List.drop_left' hiv]

theorem pcbcEnc_count (E : List Nat → List Nat) :
    ∀ (bs : List (List Nat)) (z : List Nat), (pcbcEnc E z bs).length = bs.length := by
  intro bs
  induction bs with
  | nil => intro z; rfl
  | cons b bs ih => intro z; simp only [pcbcEnc, List.length_cons]; rw [ih]

theorem process_length (E : List Nat → List Nat)
    (hE : ∀ b : List Nat, b.length = 16 → (E b).length = 16)
    (iv data : List Nat) (hiv : iv.length = 16) :
    (process E iv data).length = 16 + data.length + (16 - data.length % 16) := by
  obtain ⟨hp1, hp16, hdvd⟩ := padded_facts data.length
  set p := 16 - data.length % 16 with hp
  have hpadlen : (data ++ List.replicate p p).length = data.length + p := by simp
  have hdvd' : 16 ∣ (data ++ List.replicate p p).length := by rw [hpadlen]; exact hdvd
  have hblocks : ∀ b ∈ chunks 16 (data ++ List.replicate p p), b.length = 16 := by
    intro b hb
    exact mem_chunksGo 16 (by decide) _ _ b hdvd' hb
  have hcount : (chunks 16 (data ++ List.replicate p p)).length = (data.length + p) / 16 := by
    unfold chunks
    rw [chunksGo_count 16 (by decide) _ _ hdvd' (le_refl _), hpadlen]
  have hencblocks : ∀ c ∈ pcbcEnc E iv (chunks 16 (data ++ List.replicate p p)), c.length = 16 :=
    pcbcEnc_blocks_length E hE _ iv hiv hblocks
  rw [process_eq E iv data hiv]
  rw [List.length_append, hiv, flatten_length_const 16 _ hencblocks]
  rw [pcbcEnc_count, hcount, Nat.mul_div_cancel' hdvd]
  omega

theorem getLastD_eq_getLast?_getD (l : List Nat) (d : Nat) :
    l.getLastD d = (l.getLast?).getD d := by
  cases l <;> simp [List.getLastD_eq_getLast?]

theorem getLast?_replicate_pos (n x : Nat) (h : 0 < n) :
    (List.replicate n x).getLast? = some x := by
  induction n with
  | zero => omega
  | succ m ih =>
    cases m with
    | zero => rfl
    | succ k => simpa [List.replicate_succ] using ih (by omega)

theorem reverse_process_process (E D : List Nat → List Nat)
    (hE : ∀ b : List Nat, b.length = 16 → (E b).length = 16)
    (hD : ∀ b : List Nat, b.length = 16 → D (E b) = b)
    (iv data : List Nat) (hiv : iv.length = 16) :
    reverse_process D 16 (process E iv data) = .ok data := by
  obtain ⟨hp1, hp16, hdvd⟩ := padded_facts data.length
  set p := 16 - data.length % 16 with hp
  set padded := data ++ List.replicate p p with hpaddef
  have hpadlen : padded.length = data.length + p := by simp [hpaddef]
  have hdvd' : 16 ∣ padded.length := by rw [hpadlen]; exact hdvd
  have hblocks : ∀ b ∈ chunks 16 padded, b.length = 16 := by
    intro b hb
    exact mem_chunksGo 16 (by decide) _ _ b hdvd' hb
  set encbs := pcbcEnc E iv (chunks 16 padded) with hencbs
  have hencb : ∀ c ∈ encbs, c.length = 16 :=
    pcbcEnc_blocks_length E hE _ iv hiv hblocks
  have hflatlen : encbs.flatten.length = padded.length := by
    rw [flatten_length_const 16 _ hencb, hencbs, pcbcEnc_count]
    unfold chunks
    rw [chunksGo_count 16 (by decide) _ _ hdvd' (le_refl _)]
    exact Nat.mul_div_cancel' hdvd'
  have hproc : process E iv data = iv ++ encbs.flatten := by
    rw [process_eq E iv data hiv, hencbs, hpaddef]
  rw [hproc]
  have hctlen : (iv ++ encbs.flatten).length = 16 + padded.length := by
    simp [hiv, hflatlen]
  have hguard : ¬((iv ++ encbs.flatten).length < 16 ∨
      ((iv ++ encbs.flatten).length - 16) % 16 ≠ 0) := by
    rw [hctlen]
    push_neg
    constructor
    · omega
    · rw [Nat.add_sub_cancel_left]
      obtain ⟨k, hk⟩ := hdvd'
      rw [hk]
      exact Nat.mul_mod_right 16 k
  have htake : (iv ++ encbs.flatten).take 16 = iv := List.take_left' hiv
  have hdrop : (iv ++ encbs.flatten).drop 16 = encbs.flatten := List.drop_left' hiv
  have hchunksflat : chunks 16 encbs.flatten = encbs := by
    unfold chunks
    exact chunksGo_eq_of_blocks 16 (by decide) encbs _ hencb (le_refl _)
  have hdecenc : pcbcDec D iv encbs = chunks 16 padded := by
    rw [hencbs]
    exact pcbcDec_pcbcEnc E D hE hD _ iv hiv hblocks
  have hflatpad : (chunks 16 padded).flatten = padded := by
    unfold chunks
    exact chunksGo_flatten 16 (by decide) _ _ (le_refl _)
  have hlast : (iv ++ padded).getLastD 0 = p := by
    rw [getLastD_eq_getLast?_getD, List.getLast?_append, hpaddef, List.getLast?_append,
      getLast?_replicate_pos p p hp1]
    rfl
  have hdeclen : (iv ++ padded).length = 16 + data.length + p := by
    simp only [List.length_append, hiv, hpadlen]
    omega
  have htake2 : (iv ++ padded).take ((iv ++ padded).length - p) = iv ++ data := by
    rw [hdeclen, hpaddef, ← List.append_assoc]
    have hassl : (iv ++ data).length = 16 + data.length := by simp [hiv]
    have : 16 + data.length + p - p = 16 + data.length := by omega
    rw [this, List.take_left' hassl]
  have hlen3 : (iv ++ data).length = 16 + data.length := by simp [hiv]
  simp only [reverse_process, if_neg hguard]
  rw [htake, hdrop, hchunksflat, hdecenc, hflatpad, hlast, if_pos hp16, htake2]
  rw [if_neg (show ¬((iv ++ data).length < 16) by rw [hlen3]; omega)]
  rw [List.drop_left' hiv]

theorem layer_roundtrip_block (P : CipherPrims)
    (hE : ∀ (c : CipherOption) (k b : List Nat), b.length = 16 → (P.encB c k b).length = 16)
    (hD : ∀ (c : CipherOption) (k b : List Nat), b.length = 16 → P.decB c k (P.encB c k b) = b)
    (keys : MasterKeys) (c : CipherOption) (iv data : List Nat)
    (h1 : ¬(c = .XChaCha20)) (h2 : c.isBlockCipher = true) (hiv : iv.length = 16) :
    encLayer P keys c iv data = .ok (process (P.encB c (keys.get_key c)) iv data) ∧
      decLayer P keys c (process (P.encB c (keys.get_key c)) iv data) = .ok data := by
  constructor
  · simp [encLayer, h1, h2]
  · simp only [decLayer, if_neg h1, h2, if_pos]
    exact reverse_process_process (P.encB c (keys.get_key c)) (P.decB c (keys.get_key c))
      (hE c (keys.get_key c)) (hD c (keys.get_key c)) iv data hiv

theorem layer_roundtrip_stream (P : CipherPrims) (keys : MasterKeys) (iv data : List Nat)
    (hiv : iv.length = 24) :
    encLayer P keys .XChaCha20 iv data =
      .ok (iv ++ applyKs (P.ksByte .XChaCha20 (keys.get_key .XChaCha20) iv) data) ∧
    decLayer P keys .XChaCha20
      (iv ++ applyKs (P.ksByte .XChaCha20 (keys.get_key .XChaCha20) iv) data) = .ok data := by
  constructor
  · simp only [encLayer, if_pos]
    rw [List.take_left' hiv, List.drop_left' hiv]
  · have hlen : (iv ++ applyKs (P.ksByte .XChaCha20 (keys.get_key .XChaCha20) iv) data).length
        = 24 + data.length := by
      simp [hiv, applyKs_length]
    simp only [decLayer, if_pos]
    rw [if_neg (by rw [hlen]; omega)]
    rw [List.take_left' hiv, List.drop_left' hiv, applyKs_applyKs]

theorem layer_roundtrip (P : CipherPrims)
    (hE : ∀ (c : CipherOption) (k b : List Nat), b.length = 16 → (P.encB c k b).length = 16)
    (hD : ∀ (c : CipherOption) (k b : List Nat), b.length = 16 → P.decB c k (P.encB c k b) = b)
    (keys : MasterKeys) (c : CipherOption) (iv data : List Nat)
    (hc : c.isSymmetric = true) (hiv : iv.length = c.ivSize) :
    ∃ ct, encLayer P keys c iv data = .ok ct ∧ decLayer P keys c ct = .ok data := by
  cases c
  case XChaCha20 =>
    exact ⟨_, layer_roundtrip_stream P keys iv data hiv⟩
  case Dilithium => simp [CipherOption.isSymmetric] at hc
  case Kyber1024 => simp [CipherOption.isSymmetric] at hc
  case NTRUP1277 => simp [CipherOption.isSymmetric] at hc
  all_goals
    exact ⟨_, layer_roundtrip_block P hE hD keys _ iv data (by simp) rfl hiv⟩

theorem decryptLayers_append (P : CipherPrims) (keys : MasterKeys) :
    ∀ (xs ys : List CipherOption) (d : List Nat),
      decryptLayers P keys (xs ++ ys) d =
        match decryptLayers P keys xs d with
        | .error e => .error e
        | .ok d2 => decryptLayers P keys ys d2 := by
  intro xs
  induction xs with
  | nil => intro ys d; rfl
  | cons x xs ih =>
    intro ys d
    simp only [List.cons_append, decryptLayers]
    cases decLayer P keys x d with
    | error e => rfl
    | ok d2 => exact ih ys d2

theorem chain_enc_dec (P : CipherPrims)
    (hE : ∀ (c : CipherOption) (k b : List Nat), b.length = 16 → (P.encB c k b).length = 16)
    (hD : ∀ (c : CipherOption) (k b : List Nat), b.length = 16 → P.decB c k (P.encB c k b) = b)
    (keys : MasterKeys) :
    ∀ (chain : List CipherOption) (ivs : List (List Nat)) (data : List Nat),
      (∀ c ∈ chain, c.isSymmetric = true) → chain.length = ivs.length →
      (∀ pr ∈ chain.zip ivs, pr.2.length = pr.1.ivSize) →
      ∃ ct, CipherChain.encrypt P ⟨chain, keys⟩ ivs data = .ok ct ∧
        CipherChain.decrypt P ⟨chain, keys⟩ ct = .ok data := by
  intro chain
  induction chain with
  | nil =>
    intro ivs data _ _ _
    exact ⟨data, rfl, rfl⟩
  | cons c chain ih =>
    intro ivs data hsym hlen hziv
    cases ivs with
    | nil => simp at hlen
    | cons iv ivtl =>
      have hiv : iv.length = c.ivSize := hziv (c, iv) (by simp)
      obtain ⟨ct₀, henc0, hdec0⟩ :=
        layer_roundtrip P hE hD keys c iv data (hsym c (by simp)) hiv
      obtain ⟨ct, henc, hdec⟩ := ih ivtl ct₀ (fun x hx => hsym x (by simp [hx]))
        (by simpa using hlen) (fun pr hpr => hziv pr (by simp [hpr]))
      refine ⟨ct, ?_, ?_⟩
      · show encryptLayers P keys ((c :: chain).zip (iv :: ivtl)) data = .ok ct
        rw [List.zip_cons_cons]
        simp only [encryptLayers, henc0]
        exact henc
      · show decryptLayers P keys ((c :: chain).reverse) ct = .ok data
        rw [List.reverse_cons, decryptLayers_append]
        have hdec' : decryptLayers P keys chain.reverse ct = .ok ct₀ := hdec
        rw [hdec']
        simp only [decryptLayers, hdec0]

/-- C1: for every `MasterKeys` value, every declared cipher list drawn
from the supported symmetric ciphers, and every byte string (including
the empty one), decrypting the result of encrypting the string under the
`CipherChain` built from those keys and that list returns exactly the
original string, for every choice of the per-layer random IVs/nonces
drawn during encryption (the external block ciphers are assumed only to
invert themselves and preserve their 16-byte block size). -/
theorem cipher_chain_roundtrip (P : CipherPrims)
    (hE : ∀ (c : CipherOption) (k b : List Nat), b.length = 16 → (P.encB c k b).length = 16)
    (hD : ∀ (c : CipherOption) (k b : List Nat), b.length = 16 → P.decB c k (P.encB c k b) = b)
    (keys : MasterKeys) (chain : List CipherOption) (ivs : List (List Nat)) (data : List Nat)
    (hsym : ∀ c ∈ chain, c.isSymmetric = true)
    (hlen : chain.length = ivs.length)
    (hziv : ∀ pr ∈ chain.zip ivs, pr.2.length = pr.1.ivSize) :
    (CipherChain.encrypt P ⟨chain, keys⟩ ivs data).bind
      (fun ct => CipherChain.decrypt P ⟨chain, keys⟩ ct) = .ok data := by
  obtain ⟨ct, henc, hdec⟩ := chain_enc_dec P hE hD keys chain ivs data hsym hlen hziv
  rw [henc]
  exact hdec

/-- Witness for C1 at the CLI's cipher list, zero keys, zero IV draws and
the 23-byte test plaintext, with the identity instantiation of the
external block ciphers. -/
theorem cipher_chain_roundtrip_witness :
    (CipherChain.encrypt idPrims ⟨demoChain, zeroKeys⟩ s3Ivs s3Plain).bind
      (fun ct => CipherChain.decrypt idPrims ⟨demoChain, zeroKeys⟩ ct) = .ok s3Plain :=
  cipher_chain_roundtrip idPrims (fun _ _ _ h => h) (fun _ _ _ _ => rfl)
    zeroKeys demoChain s3Ivs s3Plain (by decide) (by decide) (by decide)


/-- C2 (amended): encrypting the 23-byte plaintext under
[AES-256, XChaCha20, Kuznyechik] yields 96 bytes for every IV choice:
23 + 9 (AES padding) + 16 (AES IV) + 24 (nonce) + 8 (Kuznyechik padding)
+ 16 (Kuznyechik IV). -/
theorem s3_encrypt_length (P : CipherPrims)
    (hE : ∀ (c : CipherOption) (k b : List Nat), b.length = 16 → (P.encB c k b).length = 16)
    (keys : MasterKeys) (iv1 iv2 iv3 : List Nat)
    (h1 : iv1.length = 16) (h2 : iv2.length = 24) (h3 : iv3.length = 16) :
    (CipherChain.encrypt P ⟨demoChain, keys⟩ [iv1, iv2, iv3] s3Plain).map List.length
      = .ok 96 := by
  set d1 := process (P.encB .AES256 (keys.get_key .AES256)) iv1 s3Plain with hd1
  have l1 : d1.length = 48 := by
    rw [hd1, process_length _ (hE .AES256 _) iv1 s3Plain h1]
    decide
  set ks := P.ksByte .XChaCha20 (keys.get_key .XChaCha20) iv2 with hks
  set d2 := iv2 ++ applyKs ks d1 with hd2
  have l2 : d2.length = 72 := by
    rw [hd2]
    simp [h2, applyKs_length, l1]
  set d3 := process (P.encB .Kuznyechik (keys.get_key .Kuznyechik)) iv3 d2 with hd3
  have l3 : d3.length = 96 := by
    rw [hd3, process_length _ (hE .Kuznyechik _) iv3 d2 h3, l2]
  have e1 : encLayer P keys .AES256 iv1 s3Plain = .ok d1 := by rw [hd1]; rfl
  have e2 : encLayer P keys .XChaCha20 iv2 d1 = .ok d2 := by
    rw [hd2, hks]
    simp only [encLayer, if_pos]
    rw [List.take_left' h2, List.drop_left' h2]
  have e3 : encLayer P keys .Kuznyechik iv3 d2 = .ok d3 := by rw [hd3]; rfl
  have hzip : demoChain.zip [iv1, iv2, iv3] =
      [(.AES256, iv1), (.XChaCha20, iv2), (.Kuznyechik, iv3)] := rfl
  show (encryptLayers P keys (demoChain.zip [iv1, iv2, iv3]) s3Plain).map List.length = .ok 96
  rw [hzip]
  simp only [encryptLayers, e1, e2, e3]
  show Except.ok d3.length = Except.ok 96
  rw [l3]

/-- Witness for C2's amended theorem at zero IVs and the identity
primitives. -/
theorem s3_encrypt_length_witness :
    (CipherChain.encrypt idPrims ⟨demoChain, zeroKeys⟩
      [List.replicate 16 0, List.replicate 24 0, List.replicate 16 0] s3Plain).map List.length
      = .ok 96 :=
  s3_encrypt_length idPrims (fun _ _ _ h => h) zeroKeys _ _ _ (by decide) (by decide) (by decide)

/-- Counterexample to C2 as stated: at a concrete IV draw the ciphertext
has 96 bytes, not 111. -/
theorem s3_encrypt_length_cex :
    (CipherChain.encrypt idPrims ⟨demoChain, zeroKeys⟩ s3Ivs s3Plain).map List.length = .ok 96
      ∧ (96 : Nat) ≠ 111 :=
  ⟨rfl, by decide⟩

/-- C7 (amended): a ciphertext too short for the outermost layer — fewer
than 24 bytes for XChaCha20, or fewer than one block / not IV plus whole
blocks for a block cipher — makes `decrypt` hit
`panic!("Invalid data length")` (modelled as the error value
`panicInvalidDataLength`); no `TruncatedCipherText` error value exists in
the code. -/
theorem decrypt_short_input_panics (P : CipherPrims) (keys : MasterKeys)
    (pre : List CipherOption) (c : CipherOption) (data : List Nat)
    (h : shortForLayer c data.length = true) :
    CipherChain.decrypt P ⟨pre ++ [c], keys⟩ data = .error .panicInvalidDataLength := by
  show decryptLayers P keys ((pre ++ [c]).reverse) data = _
  have hrev : (pre ++ [c]).reverse = c :: pre.reverse := by simp
  rw [hrev]
  have hdl : decLayer P keys c data = .error .panicInvalidDataLength := by
    cases c
    case XChaCha20 =>
      have hlt : data.length < 24 := by simpa [shortForLayer] using h
      simp [decLayer, hlt]
    case Dilithium => simp [shortForLayer, CipherOption.isBlockCipher] at h
    case Kyber1024 => simp [shortForLayer, CipherOption.isBlockCipher] at h
    case NTRUP1277 => simp [shortForLayer, CipherOption.isBlockCipher] at h
    all_goals
      have hlt : data.length < 16 ∨ (data.length - 16) % 16 ≠ 0 := by
        simpa [shortForLayer, CipherOption.isBlockCipher] using h
      simp [decLayer, reverse_process, hlt, CipherOption.isBlockCipher]
  simp only [decryptLayers, hdl]

/-- Witness for C7's amended theorem: a 1-byte buffer under an AES-256
layer. -/
theorem decrypt_short_input_panics_witness :
    shortForLayer .AES256 ([0] : List Nat).length = true ∧
    CipherChain.decrypt idPrims ⟨[] ++ [CipherOption.AES256], zeroKeys⟩ [0]
      = .error .panicInvalidDataLength :=
  ⟨by decide, decrypt_short_input_panics idPrims zeroKeys [] .AES256 [0] (by decide)⟩

/-- Counterexample to C7 as stated: on the 1-byte buffer the code panics
(`panic!("Invalid data length")`), it does not return a
`TruncatedCipherText` error — the chain's error enumeration has no such
value. -/
theorem decrypt_short_input_cex :
    CipherChain.decrypt idPrims ⟨[CipherOption.AES256], zeroKeys⟩ [0]
      = .error .panicInvalidDataLength := rfl

theorem byteToBits_length (b : Nat) : (byteToBits b).length = 8 := by
  simp [byteToBits]

theorem natToBits11_length (n : Nat) : (natToBits11 n).length = 11 := by
  simp [natToBits11]

theorem bitsToNat_append_singleton (l : List Bool) (b : Bool) :
    bitsToNat (l ++ [b]) = 2 * bitsToNat l + (if b then 1 else 0) := by
  simp [bitsToNat, List.foldl_append]

theorem bitsToNat_lt (l : List Bool) : bitsToNat l < 2 ^ l.length := by
  induction l using List.reverseRecOn with
  | nil => simp [bitsToNat]
  | append_singleton l b ih =>
    rw [bitsToNat_append_singleton]
    simp only [List.length_append, List.length_cons, List.length_nil]
    have h2 : 2 ^ (l.length + 1) = 2 * 2 ^ l.length := by ring
    cases b <;> simp <;> omega

theorem testBit_bitsToNat (l : List Bool) :
    ∀ k, (bitsToNat l).testBit k =
      if k < l.length then l.getD (l.length - 1 - k) false else false := by
  induction l using List.reverseRecOn with
  | nil => intro k; simp [bitsToNat]
  | append_singleton l b ih =>
    intro k
    rw [bitsToNat_append_singleton]
    have hlen : (l ++ [b]).length = l.length + 1 := by simp
    cases k with
    | zero =>
      have hval : (2 * bitsToNat l + (if b then 1 else 0)).testBit 0 = b := by
        cases b <;> simp [Nat.testBit_zero] <;> omega
      rw [hval, hlen]
      have hidx : l.length + 1 - 1 - 0 = l.length := by omega
      rw [if_pos (by omega : (0:Nat) < l.length + 1), hidx]
      have hgd : (l ++ [b]).getD l.length false = b := by
        rw [List.getD_append_right _ _ _ _ (le_refl _)]
        simp
      rw [hgd]
    | succ j =>
      have hdiv : (2 * bitsToNat l + (if b then 1 else 0)) / 2 = bitsToNat l := by
        cases b <;> simp <;> omega
      rw [Nat.testBit_succ, hdiv, ih j, hlen]
      by_cases hj : j < l.length
      · rw [if_pos hj, if_pos (by omega)]
        have hidx : l.length + 1 - 1 - (j + 1) = l.length - 1 - j := by omega
        rw [hidx]
        have hlt : l.length - 1 - j < l.length := by omega
        rw [List.getD_append _ _ _ _ hlt]
      · rw [if_neg hj, if_neg (by omega)]

theorem getD_map_range {α : Type} (n : Nat) (f : Nat → α) (i : Nat) (d : α) (h : i < n) :
    ((List.range n).map f).getD i d = f i := by
  have hl : i < ((List.range n).map f).length := by simp [h]
  rw [List.getD_eq_getElem _ _ hl]
  simp

theorem natToBits11_bitsToNat (l : List Bool) (h : l.length = 11) :
    natToBits11 (bitsToNat l) = l := by
  apply List.ext_get
  · rw [natToBits11_length, h]
  · intro i h1 h2
    have hi : i < 11 := by rw [natToBits11_length] at h1; omega
    have hget : (natToBits11 (bitsToNat l)).get ⟨i, h1⟩ = (bitsToNat l).testBit (10 - i) := by
      simp [natToBits11]
    rw [hget, testBit_bitsToNat l (10 - i)]
    rw [if_pos (show 10 - i < l.length by omega)]
    have hidx : l.length - 1 - (10 - i) = i := by omega
    rw [hidx, List.getD_eq_getElem _ _ (by omega)]
    simp

theorem bitsToNat_byteToBits (b : Nat) (hb : b < 256) :
    bitsToNat (byteToBits b) = b := by
  apply Nat.eq_of_testBit_eq
  intro k
  rw [testBit_bitsToNat, byteToBits_length]
  by_cases hk : k < 8
  · rw [if_pos hk]
    unfold byteToBits
    rw [getD_map_range 8 _ _ _ (by omega)]
    have : 7 - (8 - 1 - k) = k := by omega
    rw [this]
  · rw [if_neg hk]
    have : b < 2 ^ k := by
      calc b < 256 := hb
      _ = 2 ^ 8 := by norm_num
      _ ≤ 2 ^ k := Nat.pow_le_pow_right (by omega) (by omega)
    exact (Nat.testBit_eq_false_of_lt this).symm

theorem flatten_bytes_extract :
    ∀ (e : List Nat) (tail : List Bool) (k : Nat), k < e.length →
      (((e.map byteToBits).flatten ++ tail).drop (8 * k)).take 8 = byteToBits (e.getD k 0) := by
  intro e
  induction e with
  | nil => intro tail k hk; simp at hk
  | cons b e ih =>
    intro tail k hk
    have hassoc : ((b :: e).map byteToBits).flatten ++ tail
        = byteToBits b ++ ((e.map byteToBits).flatten ++ tail) := by
      simp
    rw [hassoc]
    cases k with
    | zero =>
      rw [Nat.mul_zero, List.drop_zero]
      rw [List.take_left' (byteToBits_length b)]
      rfl
    | succ j =>
      have hmul : 8 * (j + 1) = (byteToBits b).length + 8 * j := by
        rw [byteToBits_length]; ring
      rw [hmul, List.drop_append]
      have hj : j < e.length := by simpa using hk
      rw [ih tail j hj]
      rfl

theorem range_map_getD : ∀ (l : List Nat), (List.range l.length).map (fun k => l.getD k 0) = l := by
  intro l
  induction l with
  | nil => rfl
  | cons a l ih =>
    rw [List.length_cons, List.range_succ_eq_map, List.map_cons, List.map_map]
    have h1 : (a :: l).getD 0 0 = a := rfl
    have h2 : ((fun k => (a :: l).getD k 0) ∘ (· + 1)) = fun k => l.getD k 0 := by
      funext k
      rfl
    rw [h1, h2, ih]

theorem findIdx?_getD_self :
    ∀ (l : List String) (s idx : Nat), l.Nodup → idx < l.length →
      l.findIdx? (fun x => x == l.getD idx "") s = some (s + idx) := by
  intro l
  induction l with
  | nil => intro s idx _ h; simp at h
  | cons a t ih =>
    intro s idx hnd hidx
    rcases List.nodup_cons.mp hnd with ⟨ha, hndt⟩
    cases idx with
    | zero =>
      rw [List.findIdx?_cons]
      have : (a == (a :: t).getD 0 "") = true := by simp
      rw [this]
      simp
    | succ j =>
      have hgd : (a :: t).getD (j + 1) "" = t.getD j "" := rfl
      have hj : j < t.length := by simpa using hidx
      have hmem : t.getD j "" ∈ t := by
        rw [List.getD_eq_getElem _ _ hj]
        exact List.getElem_mem hj
      have hne : (a == (a :: t).getD (j + 1) "") = false := by
        rw [hgd]
        exact beq_eq_false_iff_ne.mpr (fun hc => ha (hc ▸ hmem))
      rw [List.findIdx?_cons, hne]
      simp only [Bool.false_eq_true, if_false]
      have := ih (s + 1) j hndt hj
      rw [hgd, this]
      congr 1
      omega

theorem wordIndices_map_getD (wl : List String) (hnd : wl.Nodup) :
    ∀ (chs : List (List Bool)), (∀ ch ∈ chs, bitsToNat ch < wl.length) →
      wordIndices wl (chs.map (fun ch => wl.getD (bitsToNat ch) "")) =
        .ok (chs.map bitsToNat) := by
  intro chs
  induction chs with
  | nil => intro _; rfl
  | cons ch chs ih =>
    intro hb
    have hch : bitsToNat ch < wl.length := hb ch (by simp)
    simp only [List.map_cons, wordIndices]
    rw [findIdx?_getD_self wl 0 (bitsToNat ch) hnd hch,
      ih (fun c hc => hb c (by simp [hc]))]
    simp

/-- C8: for every valid entropy (length 16/20/24/28/32 bytes), decoding
the mnemonic obtained by encoding it returns exactly that entropy, and
the encoded word list has 12/15/18/21/24 words. -/
theorem bip39_roundtrip (sha : List Nat → List Nat) (wordlist : List String)
    (hwl : wordlist.length = 2048) (hnd : wordlist.Nodup)
    (e : List Nat)
    (hlen : e.length = 16 ∨ e.length = 20 ∨ e.length = 24 ∨ e.length = 28 ∨ e.length = 32)
    (hbytes : ∀ b ∈ e, b < 256) :
    from_mnemonic sha wordlist (entropy_to_mnemonic sha wordlist e) = .ok e ∧
      ((entropy_to_mnemonic sha wordlist e).length = 12 ∨
       (entropy_to_mnemonic sha wordlist e).length = 15 ∨
       (entropy_to_mnemonic sha wordlist e).length = 18 ∨
       (entropy_to_mnemonic sha wordlist e).length = 21 ∨
       (entropy_to_mnemonic sha wordlist e).length = 24) := by
  set cs := generate_checksum sha e with hcs
  set bits := (e.map byteToBits).flatten ++ (byteToBits cs).take (e.length / 4) with hbitsdef
  have hwords : entropy_to_mnemonic sha wordlist e =
      (chunks 11 bits).map (fun chunk => wordlist.getD (bitsToNat chunk) "") := rfl
  have hflat : (e.map byteToBits).flatten.length = 8 * e.length := by
    rw [flatten_length_const 8]
    · simp
    · intro bb hbb
      obtain ⟨x, _, hx⟩ := List.mem_map.mp hbb
      rw [← hx]
      exact byteToBits_length x
  have hdiv4 : e.length / 4 ≤ 8 := by rcases hlen with h|h|h|h|h <;> omega
  have htake : ((byteToBits cs).take (e.length / 4)).length = e.length / 4 := by
    rw [List.length_take, byteToBits_length]
    omega
  have hbitslen : bits.length = 8 * e.length + e.length / 4 := by
    rw [hbitsdef, List.length_append, hflat, htake]
  have hBL : bits.length = 132 ∨ bits.length = 165 ∨ bits.length = 198 ∨
      bits.length = 231 ∨ bits.length = 264 := by
    rcases hlen with h|h|h|h|h <;> rw [hbitslen, h] <;> simp
  have hdvd : 11 ∣ bits.length := by rcases hBL with h|h|h|h|h <;> rw [h] <;> decide
  have hchl : ∀ ch ∈ chunks 11 bits, ch.length = 11 := by
    intro ch hch
    exact mem_chunksGo 11 (by decide) _ _ ch hdvd hch
  have hchlt : ∀ ch ∈ chunks 11 bits, bitsToNat ch < wordlist.length := by
    intro ch hch
    have hb := bitsToNat_lt ch
    rw [hchl ch hch] at hb
    rw [hwl]
    calc bitsToNat ch < 2 ^ 11 := hb
    _ = 2048 := by norm_num
    _ ≤ 2048 := le_refl _
  have hcount : (chunks 11 bits).length = bits.length / 11 := by
    unfold chunks
    exact chunksGo_count 11 (by decide) _ _ hdvd (le_refl _)
  have hwc : (entropy_to_mnemonic sha wordlist e).length = bits.length / 11 := by
    rw [hwords, List.length_map, hcount]
  have hWI : wordIndices wordlist
      ((chunks 11 bits).map (fun ch => wordlist.getD (bitsToNat ch) ""))
      = .ok ((chunks 11 bits).map bitsToNat) := wordIndices_map_getD wordlist hnd _ hchlt
  have hback : (((chunks 11 bits).map bitsToNat).map natToBits11).flatten = bits := by
    rw [List.map_map]
    have hid : (chunks 11 bits).map (natToBits11 ∘ bitsToNat) = chunks 11 bits := by
      have h1 : ∀ ch ∈ chunks 11 bits, (natToBits11 ∘ bitsToNat) ch = id ch := by
        intro ch hch
        exact natToBits11_bitsToNat ch (hchl ch hch)
      rw [List.map_congr_left h1, List.map_id]
    rw [hid]
    unfold chunks
    exact chunksGo_flatten 11 (by decide) _ _ (le_refl _)
  have hvm : verify_mnemonic (entropy_to_mnemonic sha wordlist e) = true := by
    unfold verify_mnemonic
    rw [hwc]
    rcases hBL with h|h|h|h|h <;> rw [h] <;> decide
  have hEB : (bits.length - bits.length / 33 + 7) / 8 = e.length := by
    rcases hlen with h|h|h|h|h <;> rw [hbitslen, h] <;> rw [h] <;> decide
  have hextract : ∀ k ∈ List.range e.length,
      bitsToNat ((bits.drop (8 * k)).take 8) = e.getD k 0 := by
    intro k hk
    have hklt : k < e.length := List.mem_range.mp hk
    rw [hbitsdef, flatten_bytes_extract e _ k hklt]
    apply bitsToNat_byteToBits
    have hmem : e.getD k 0 ∈ e := by
      rw [List.getD_eq_getElem _ _ hklt]
      exact List.getElem_mem hklt
    exact hbytes _ hmem
  have hentropy : (List.range ((bits.length - bits.length / 33 + 7) / 8)).map
      (fun k => bitsToNat ((bits.drop (8 * k)).take 8)) = e := by
    rw [hEB, List.map_congr_left hextract]
    exact range_map_getD e
  constructor
  · have hm2e : mnemonic_to_entropy sha wordlist (entropy_to_mnemonic sha wordlist e)
        = .ok e := by
      rw [hwords]
      unfold mnemonic_to_entropy
      rw [hWI]
      dsimp only
      rw [hback, hentropy]
      rfl
    unfold from_mnemonic
    rw [if_neg (by rw [hvm]; simp)]
    exact hm2e
  · rw [hwc]
    rcases hBL with h|h|h|h|h <;> rw [h] <;> simp

theorem u64le_length (n : Nat) : (u64le n).length = 8 := by
  simp [u64le]

theorem leToNat_digits :
    ∀ (k n : Nat), leToNat ((List.range k).map (fun i => n / 256 ^ i % 256)) = n % 256 ^ k := by
  intro k
  induction k with
  | zero => intro n; simp [leToNat, Nat.mod_one]
  | succ k ih =>
    intro n
    rw [List.range_succ_eq_map, List.map_cons, List.map_map]
    have htail : (List.range k).map ((fun i => n / 256 ^ i % 256) ∘ (· + 1))
        = (List.range k).map (fun i => (n / 256) / 256 ^ i % 256) := by
      apply List.map_congr_left
      intro i _
      simp only [Function.comp]
      rw [Nat.div_div_eq_div_mul]
      congr 2
      rw [pow_succ]
      ring
    have hcons : ∀ (x : Nat) (l : List Nat), leToNat (x :: l) = x + 256 * leToNat l := by
      intro x l; rfl
    rw [htail, hcons, ih (n / 256)]
    have hpow : (256 : Nat) ^ (k + 1) = 256 * 256 ^ k := by ring
    rw [hpow, Nat.mod_mul]
    simp

theorem leToNat_u64le (n : Nat) : leToNat (u64le n) = n % 2 ^ 64 := by
  unfold u64le
  rw [leToNat_digits 8 n]
  norm_num

theorem readBytes_exact (A X : List Nat) (n : Nat) (h : A.length = n) :
    readBytes n (A ++ X) = some (A, X) := by
  unfold readBytes
  rw [if_pos (by simp [← h])]
  rw [List.take_left' h, List.drop_left' h]

theorem readU64_exact (m : Nat) (X : List Nat) :
    readU64 (u64le m ++ X) = some (m % 2 ^ 64, X) := by
  unfold readU64
  rw [readBytes_exact (u64le m) X 8 (u64le_length m)]
  show some (leToNat (u64le m), X) = some (m % 2 ^ 64, X)
  rw [leToNat_u64le]

theorem readBytes_mod_len (A X : List Nat) :
    readBytes (A.length % 2 ^ 64) (A ++ X) =
      some ((A ++ X).take (A.length % 2 ^ 64), (A ++ X).drop (A.length % 2 ^ 64)) := by
  unfold readBytes
  rw [if_pos]
  have := Nat.mod_le A.length (2 ^ 64)
  simp
  omega

theorem deser_ser (r : CipherRecord) (h32 : r.user_id.length = 32)
    (hopt : r.cipher_options.length < 2 ^ 64) :
    deserCipherRecord (serCipherRecord r) =
      some { user_id := r.user_id,
             cipher_record_id := r.cipher_record_id % 2 ^ 64,
             ver := r.ver % 2 ^ 64,
             cipher_options := r.cipher_options,
             data := r.data.take (r.data.length % 2 ^ 64) } := by
  have hmod : r.cipher_options.length % 2 ^ 64 = r.cipher_options.length :=
    Nat.mod_eq_of_lt hopt
  have hlast : readBytes (r.data.length % 2 ^ 64) r.data
      = some (r.data.take (r.data.length % 2 ^ 64), r.data.drop (r.data.length % 2 ^ 64)) := by
    unfold readBytes
    rw [if_pos (Nat.mod_le _ _)]
  unfold serCipherRecord deserCipherRecord
  simp only [readBytes_exact _ _ _ h32, readU64_exact, hmod,
    readBytes_exact _ _ _ rfl, hlast]

theorem assocGet_assocSet_self :
    ∀ (st : Store) (k : Nat) (v : List Nat), assocGet (assocSet st k v) k = some v := by
  intro st k v
  induction st with
  | nil => simp [assocSet, assocGet]
  | cons p st ih =>
    obtain ⟨k', v'⟩ := p
    by_cases h : k' = k
    · simp [assocSet, assocGet, h]
    · simp only [assocSet, assocGet, if_neg h]
      exact ih


theorem get_after_set (st : Store) (k : Nat) (r : CipherRecord)
    (h32 : r.user_id.length = 32) (hopt : r.cipher_options.length < 2 ^ 64) :
    Storage.get (Storage.set st k r) k = .ok (storedOf r) := by
  simp only [Storage.get, Storage.set, assocGet_assocSet_self, deser_ser r h32 hopt, storedOf]

theorem get_after_up (st : Store) (k : Nat) (r : CipherRecord)
    (h32 : r.user_id.length = 32) (hopt : r.cipher_options.length < 2 ^ 64) :
    Storage.get (Storage.up st k r) k = .ok (storedOf r) := by
  simp only [Storage.get, Storage.up, assocGet_assocSet_self, deser_ser r h32 hopt, storedOf]

theorem encLayer_ok (P : CipherPrims) (keys : MasterKeys) (c : CipherOption)
    (iv data : List Nat) (hc : c.isSymmetric = true) :
    ∃ d, encLayer P keys c iv data = .ok d := by
  cases c
  case Dilithium => exact absurd hc (by decide)
  case Kyber1024 => exact absurd hc (by decide)
  case NTRUP1277 => exact absurd hc (by decide)
  all_goals exact ⟨_, rfl⟩

theorem encryptLayers_ok (P : CipherPrims) (keys : MasterKeys) :
    ∀ (ps : List (CipherOption × List Nat)) (data : List Nat),
      (∀ pr ∈ ps, pr.1.isSymmetric = true) →
      ∃ ct, encryptLayers P keys ps data = .ok ct := by
  intro ps
  induction ps with
  | nil => intro data _; exact ⟨data, rfl⟩
  | cons p rest ih =>
    intro data hsym
    obtain ⟨c, iv⟩ := p
    obtain ⟨d, hd⟩ := encLayer_ok P keys c iv data (hsym (c, iv) (by simp))
    obtain ⟨ct, hct⟩ := ih d (fun pr hpr => hsym pr (by simp [hpr]))
    exact ⟨ct, by simp only [encryptLayers, hd]; exact hct⟩

/-- C6 (amended): after a successful `update` of a record whose stored
version is `v`, reading the id back yields `ver = (v + 1) % 2^64` — the
increment is u64 wrapping, so it is strictly greater only below
`u64::MAX` — and a record freshly persisted by `create` has `ver = 1`. -/
theorem ver_after_update_and_create (P : CipherPrims) (serRec : Record → List Nat)
    (u : UserDb) (st : Store) (ivs : List (List Nat)) (id now : Nat) (r r2 : Record)
    (cur : CipherRecord) (st' : Store) (rid : Nat) (st2 : Store)
    (h32 : u.user_id.length = 32)
    (hcur : Storage.get st id = .ok cur)
    (hupd : UserDb.update P serRec u st ivs id r = .ok st')
    (hcr : UserDb.create P serRec u st now ivs r2 = .ok (rid, st2)) :
    (∃ ru, Storage.get st' id = .ok ru ∧ ru.ver = (cur.ver + 1) % 2 ^ 64) ∧
    (∃ rc, Storage.get st2 rid = .ok rc ∧ rc.ver = 1) := by
  constructor
  · simp only [UserDb.update, hcur] at hupd
    cases henc : CipherChain.encrypt P u.ciphers ivs (serRec r) with
    | error e =>
      simp only [henc] at hupd
      exact Except.noConfusion hupd
    | ok enc =>
      simp only [henc] at hupd
      have hst' : st' = Storage.up st id
          { user_id := u.user_id, cipher_record_id := id,
            ver := (cur.ver + 1) % 2 ^ 64,
            cipher_options := u.get_cipher_options, data := enc } := by
        exact (Except.ok.inj hupd).symm
      rw [hst', get_after_up _ _ _ h32 (by norm_num [UserDb.get_cipher_options])]
      refine ⟨_, rfl, ?_⟩
      show ((cur.ver + 1) % 2 ^ 64) % 2 ^ 64 = (cur.ver + 1) % 2 ^ 64
      omega
  · simp only [UserDb.create] at hcr
    cases henc : CipherChain.encrypt P u.ciphers ivs (serRec r2) with
    | error e =>
      simp only [henc] at hcr
      exact Except.noConfusion hcr
    | ok enc =>
      simp only [henc] at hcr
      have hpair := Except.ok.inj hcr
      have hrid : rid = u.generate_record_id now := (congrArg Prod.fst hpair).symm
      have hst2 : st2 = Storage.set st (u.generate_record_id now)
          { user_id := u.user_id, cipher_record_id := u.generate_record_id now,
            ver := 1, cipher_options := u.get_cipher_options, data := enc } := by
        exact (congrArg Prod.snd hpair).symm
      rw [hst2, hrid, get_after_set _ _ _ h32 (by norm_num [UserDb.get_cipher_options])]
      exact ⟨_, rfl, rfl⟩















/-- Witness for C6's amended theorem on a concrete one-record store. -/
theorem ver_after_update_and_create_witness :
    (∃ ru, Storage.get c6After 1 = .ok ru ∧ ru.ver = (c6CurStored.ver + 1) % 2 ^ 64) ∧
    (∃ rc, Storage.get c6Created 7 = .ok rc ∧ rc.ver = 1) :=
  ver_after_update_and_create idPrims (fun _ => []) emptyChainUser c6Store [] 1 7
    demoRecord demoRecord c6CurStored c6After 7 c6Created (by decide) rfl rfl rfl

/-- Counterexample to C6 as stated: a stored version of `2^64 - 1` (a
u64 value reachable, e.g., through the sync path that persists
server-supplied versions verbatim) wraps to 0 on update, which is not
`v + 1` and not strictly greater. -/
theorem ver_update_wrap_cex :
    (match UserDb.update idPrims (fun _ => []) emptyChainUser c6WrapStore [] 1 demoRecord with
     | .ok st' =>
       (match Storage.get st' 1 with
        | .ok ru => some ru.ver
        | _ => none)
     | .error _ => none) = some 0 ∧ (0 : Nat) ≠ (2 ^ 64 - 1) + 1 :=
  ⟨rfl, by decide⟩

/-- C9 (amended): `update` performs no ownership check — on a stored
record with a foreign `user_id`, `read` fails with `DecryptionError`,
yet `update` succeeds and replaces it with a record carrying the
session's `user_id` and `ver = (foreign.ver + 1) % 2^64`. -/
theorem update_no_ownership_check (P : CipherPrims) (serRec : Record → List Nat)
    (deserRec : List Nat → Option Record) (u : UserDb) (st : Store)
    (ivs : List (List Nat)) (id : Nat) (r : Record) (foreign : CipherRecord)
    (h32 : u.user_id.length = 32)
    (hfor : Storage.get st id = .ok foreign)
    (hne : foreign.user_id ≠ u.user_id)
    (hsym : ∀ c ∈ u.ciphers.cipher_chain, c.isSymmetric = true) :
    UserDb.read P deserRec u st id = .error .decryptionError ∧
    ∃ st', UserDb.update P serRec u st ivs id r = .ok st' ∧
      ∃ ru, Storage.get st' id = .ok ru ∧ ru.user_id = u.user_id ∧
        ru.ver = (foreign.ver + 1) % 2 ^ 64 := by
  constructor
  · simp only [UserDb.read, hfor]
    rw [if_pos hne]
  · obtain ⟨enc, henc⟩ := encryptLayers_ok P u.ciphers.keys
      (u.ciphers.cipher_chain.zip ivs) (serRec r)
      (fun pr hpr => by
        obtain ⟨c, iv⟩ := pr
        exact hsym c (List.of_mem_zip hpr).1)
    have hupd : UserDb.update P serRec u st ivs id r = .ok (Storage.up st id
        { user_id := u.user_id, cipher_record_id := id,
          ver := (foreign.ver + 1) % 2 ^ 64,
          cipher_options := u.get_cipher_options, data := enc }) := by
      simp only [UserDb.update, hfor, CipherChain.encrypt, henc]
    refine ⟨_, hupd, ?_⟩
    rw [get_after_up _ _ _ h32 (by norm_num [UserDb.get_cipher_options])]
    refine ⟨_, rfl, rfl, ?_⟩
    show ((foreign.ver + 1) % 2 ^ 64) % 2 ^ 64 = (foreign.ver + 1) % 2 ^ 64
    omega

/-- Witness for C9's amended theorem on a concrete foreign record. -/
theorem update_no_ownership_check_witness :
    UserDb.read idPrims (fun _ => none) emptyChainUser c9Store 3 = .error .decryptionError ∧
    ∃ st', UserDb.update idPrims (fun _ => []) emptyChainUser c9Store [] 3 demoRecord
        = .ok st' ∧
      ∃ ru, Storage.get st' 3 = .ok ru ∧ ru.user_id = emptyChainUser.user_id ∧
        ru.ver = (c9Foreign.ver + 1) % 2 ^ 64 :=
  update_no_ownership_check idPrims (fun _ => []) (fun _ => none) emptyChainUser c9Store []
    3 demoRecord c9Foreign (by decide) rfl (by decide) (by decide)

/-- Counterexample to C9 as stated: a foreign record with stored version
`2^64 - 1` is replaced with version 0, not `foreign.ver + 1`. -/
theorem update_foreign_wrap_cex :
    UserDb.read idPrims (fun _ => none) emptyChainUser c9WrapStore 3
      = .error .decryptionError ∧
    (match UserDb.update idPrims (fun _ => []) emptyChainUser c9WrapStore [] 3 demoRecord with
     | .ok st' =>
       (match Storage.get st' 3 with
        | .ok ru => some (ru.user_id, ru.ver)
        | _ => none)
     | .error _ => none) = some (List.replicate 32 0, 0) ∧ (0 : Nat) ≠ (2 ^ 64 - 1) + 1 :=
  ⟨rfl, rfl, by decide⟩

theorem listRecordsGo_sound (st : Store) (uid : List Nat) :
    ∀ (idl ids : List Nat), listRecordsGo st uid idl = .ok ids →
      ∀ i ∈ ids, ∃ k ru, Storage.get st k = .ok ru ∧ ru.user_id = uid ∧
        i = ru.cipher_record_id := by
  intro idl
  induction idl with
  | nil =>
    intro ids h i hi
    simp only [listRecordsGo] at h
    rw [← Except.ok.inj h] at hi
    simp at hi
  | cons id rest ih =>
    intro ids h i hi
    cases hg : Storage.get st id with
    | panic =>
      simp only [listRecordsGo, hg] at h
      exact Except.noConfusion h
    | err e =>
      simp only [listRecordsGo, hg] at h
      exact ih ids h i hi
    | ok record =>
      simp only [listRecordsGo, hg] at h
      cases hr : listRecordsGo st uid rest with
      | error e =>
        rw [hr] at h
        exact Except.noConfusion h
      | ok tl =>
        rw [hr] at h
        have hids : ids = if record.user_id = uid then record.cipher_record_id :: tl
            else tl := (Except.ok.inj h).symm
        by_cases hu : record.user_id = uid
        · rw [hids, if_pos hu] at hi
          rcases List.mem_cons.mp hi with hi1 | hi2
          · exact ⟨id, record, hg, hu, hi1⟩
          · exact ih tl hr i hi2
        · rw [hids, if_neg hu] at hi
          exact ih tl hr i hi

theorem listMetaGo_sound (st : Store) (uid : List Nat) :
    ∀ (idl : List Nat) (meta : List (Nat × Nat × List Nat)),
      listMetaGo st uid idl = .ok meta →
      ∀ m ∈ meta, ∃ k ru, Storage.get st k = .ok ru ∧ ru.user_id = uid ∧
        m = (ru.cipher_record_id, ru.ver, ru.user_id) := by
  intro idl
  induction idl with
  | nil =>
    intro meta h m hm
    simp only [listMetaGo] at h
    rw [← Except.ok.inj h] at hm
    simp at hm
  | cons id rest ih =>
    intro meta h m hm
    cases hg : Storage.get st id with
    | panic =>
      simp only [listMetaGo, hg] at h
      exact Except.noConfusion h
    | err e =>
      simp only [listMetaGo, hg] at h
      exact ih meta h m hm
    | ok record =>
      simp only [listMetaGo, hg] at h
      cases hr : listMetaGo st uid rest with
      | error e =>
        rw [hr] at h
        exact Except.noConfusion h
      | ok tl =>
        rw [hr] at h
        have hmeta : meta = if record.user_id = uid then
            (record.cipher_record_id, record.ver, record.user_id) :: tl
            else tl := (Except.ok.inj h).symm
        by_cases hu : record.user_id = uid
        · rw [hmeta, if_pos hu] at hm
          rcases List.mem_cons.mp hm with hm1 | hm2
          · exact ⟨id, record, hg, hu, hm1⟩
          · exact ih tl hr m hm2
        · rw [hmeta, if_neg hu] at hm
          exact ih tl hr m hm

/-- C10 (amended): every id returned by a successful `list_records`, and
every triple returned by a successful `list_records_with_metadata`,
comes from a loadable stored record whose `user_id` equals the
session's.  (Per-record `Err` results are skipped, but a stored value
that fails to deserialize panics instead of being omitted.) -/
theorem list_records_owner_only (u : UserDb) (st : Store) (ids : List Nat)
    (meta : List (Nat × Nat × List Nat))
    (hl : UserDb.list_records u st = .ok ids)
    (hm : UserDb.list_records_with_metadata u st = .ok meta) :
    (∀ i ∈ ids, ∃ k ru, Storage.get st k = .ok ru ∧ ru.user_id = u.user_id ∧
        i = ru.cipher_record_id) ∧
    (∀ m ∈ meta, ∃ k ru, Storage.get st k = .ok ru ∧ ru.user_id = u.user_id ∧
        m = (ru.cipher_record_id, ru.ver, ru.user_id)) :=
  ⟨listRecordsGo_sound st u.user_id _ ids hl, listMetaGo_sound st u.user_id _ meta hm⟩

/-- Witness for C10's amended theorem: a store holding one foreign and
one owned record; only the owned one is listed. -/
theorem list_records_owner_only_witness :
    (∀ i ∈ [(4 : Nat)], ∃ k ru, Storage.get c10Store k = .ok ru ∧
        ru.user_id = emptyChainUser.user_id ∧ i = ru.cipher_record_id) ∧
    (∀ m ∈ [((4 : Nat), (1 : Nat), uid0)], ∃ k ru, Storage.get c10Store k = .ok ru ∧
        ru.user_id = emptyChainUser.user_id ∧
        m = (ru.cipher_record_id, ru.ver, ru.user_id)) :=
  list_records_owner_only emptyChainUser c10Store [4] [(4, 1, uid0)] rfl rfl

/-- Counterexample to C10 as stated: a stored value that fails bincode
deserialization (here: empty bytes) makes both listing functions fail
with the modelled panic (`deserialize(..).unwrap()`), instead of being
silently omitted. -/
theorem list_records_corrupt_panics_cex :
    UserDb.list_records emptyChainUser [(1, [])] = .error .panic ∧
    UserDb.list_records_with_metadata emptyChainUser [(1, [])] = .error .panic :=
  ⟨rfl, rfl⟩

/-- C3 (code evaluation at the failing input): the 12-word mnemonic
"abandon abandon … abandon" has checksum bits 0000 while the first
nibble of SHA-256 of its zero entropy is 0011, yet `from_mnemonic`
returns the entropy successfully for every hash function and every word
list starting with "abandon" — `verify_checksum` returns `true`
unconditionally, so no input ever fails with `InvalidChecksum`. -/
theorem bip39_accepts_bad_checksum (sha : List Nat → List Nat) (rest : List String) :
    from_mnemonic sha ("abandon" :: rest) (List.replicate 12 "abandon") =
      .ok (List.replicate 16 0) := by
  show from_mnemonic sha ("abandon" :: rest) (List.replicate 12 "abandon") = _
  simp [from_mnemonic, verify_mnemonic, mnemonic_to_entropy, wordIndices, List.findIdx?]
  rfl

/-- C4 (code evaluation): a successful `sign_request` returns the
session with its `nonce` field unchanged — the computed
`nonce.wrapping_add(1)` is discarded (`let _ = ...`), so the stored
nonce never advances. -/
theorem sign_request_nonce_unchanged (sign : List Nat → List Nat → List Nat)
    (s : ServerSession) (request_bytes : List Nat) (auth : AuthSignature)
    (s' : ServerSession)
    (h : sign_request sign s request_bytes = .ok (auth, s')) :
    s'.nonce = s.nonce := by
  cases hk : s.key_pairs with
  | none => simp [sign_request, hk] at h
  | some kp =>
    simp only [sign_request, hk] at h
    have hpair := Except.ok.inj h
    have hs : s = s' := congrArg Prod.snd hpair
    rw [← hs]

/-- Witness for C4's theorem: a session with nonce 5 still has nonce 5
after signing. -/
theorem sign_request_nonce_unchanged_witness :
    ServerSession.nonce ⟨uid0, some [], 5⟩ = 5 :=
  sign_request_nonce_unchanged (fun _ _ => []) ⟨uid0, some [], 5⟩ []
    ⟨uid0, 5, []⟩ ⟨uid0, some [], 5⟩ rfl

/-- C5 (code evaluation at the failing input): with the CLI's cipher
list [AES-256, XChaCha20, Kuznyechik], `create` persists
`cipher_options = [1, 13]` (the hardcoded AES-256 and XChaCha20 codes),
while the codes of the ciphers actually applied to produce `data` are
`[1, 13, 7]` — the stored list omits Kuznyechik. -/
theorem create_cipher_options_mismatch :
    (match UserDb.create idPrims (fun _ => []) demoUser [] 7 s3Ivs demoRecord with
     | .ok (rid, st) =>
       (match Storage.get st rid with
        | .ok ru => some ru.cipher_options
        | _ => none)
     | .error _ => none) = some [1, 13] ∧
    demoChain.map CipherOption.code = [1, 13, 7] ∧
    ([1, 13] : List Nat) ≠ [1, 13, 7] :=
  ⟨rfl, rfl, by decide⟩


theorem witnessWordlist_nodup : witnessWordlist.Nodup := by
  apply List.Nodup.map ?_ (List.nodup_range 2048)
  intro m n h
  have hdata : List.replicate m 'a' = List.replicate n 'a' := congrArg String.data h
  have := congrArg List.length hdata
  simpa using this

/-- Witness for C8 at zero entropy and a concrete 2048-word
duplicate-free word list. -/
theorem bip39_roundtrip_witness :
    from_mnemonic (fun _ => []) witnessWordlist
        (entropy_to_mnemonic (fun _ => []) witnessWordlist (List.replicate 16 0))
      = .ok (List.replicate 16 0) ∧
      ((entropy_to_mnemonic (fun _ => []) witnessWordlist (List.replicate 16 0)).length = 12 ∨
       (entropy_to_mnemonic (fun _ => []) witnessWordlist (List.replicate 16 0)).length = 15 ∨
       (entropy_to_mnemonic (fun _ => []) witnessWordlist (List.replicate 16 0)).length = 18 ∨
       (entropy_to_mnemonic (fun _ => []) witnessWordlist (List.replicate 16 0)).length = 21 ∨
       (entropy_to_mnemonic (fun _ => []) witnessWordlist (List.replicate 16 0)).length = 24) :=
  bip39_roundtrip (fun _ => []) witnessWordlist (by simp [witnessWordlist])
    witnessWordlist_nodup (List.replicate 16 0) (by simp)
    (fun b hb => by rw [List.eq_of_mem_replicate hb]; decide)
